import Mathlib

/-!
Verification development for the `blockchain-sim` crate: a proof-of-work
ledger simulator with an event bus and read-only query handlers.

The Rust sources are shallowly embedded below.  Machine integers (`u32`,
`u64`, `usize`) are modelled as `Nat`; every arithmetic step of SHA-256 is
reduced modulo `2^32` exactly where the machine word wraps.  Strings are
hashed through their UTF-8 byte sequence, as Rust's `as_bytes` does.  The
unbounded mining loop is given explicit fuel and returns `Option`; `none`
means the fuel ran out before the proof-of-work search succeeded, matching
a still-running Rust loop.  The system clock is passed in as an
`Except String Nat` value so that the clock-failure path of `Block::new`
is representable.
-/

/-! ### SHA-256 (the `sha2` crate's digest, reimplemented as a pure function) -/

/-- Truncate to a 32-bit word. -/
def w32 (n : Nat) : Nat := n % 4294967296

/-- 32-bit addition with wrap-around. -/
def add32 (a b : Nat) : Nat := (a + b) % 4294967296

/-- Bitwise complement on a 32-bit word. -/
def not32 (x : Nat) : Nat := x ^^^ 4294967295

/-- Right rotation of a 32-bit word by `n` places. -/
def rotr32 (n x : Nat) : Nat := w32 ((x >>> n) ||| (x <<< (32 - n)))

/-- SHA-256 choice function. -/
def shaCh (e f g : Nat) : Nat := (e &&& f) ^^^ (not32 e &&& g)

/-- SHA-256 majority function. -/
def shaMaj (a b c : Nat) : Nat := (a &&& b) ^^^ (a &&& c) ^^^ (b &&& c)

/-- Big sigma-0. -/
def bigS0 (x : Nat) : Nat := rotr32 2 x ^^^ rotr32 13 x ^^^ rotr32 22 x

/-- Big sigma-1. -/
def bigS1 (x : Nat) : Nat := rotr32 6 x ^^^ rotr32 11 x ^^^ rotr32 25 x

/-- Small sigma-0. -/
def smallS0 (x : Nat) : Nat := rotr32 7 x ^^^ rotr32 18 x ^^^ (x >>> 3)

/-- Small sigma-1. -/
def smallS1 (x : Nat) : Nat := rotr32 17 x ^^^ rotr32 19 x ^^^ (x >>> 10)

/-- The 64 SHA-256 round constants (fractional parts of the cube roots of
the first 64 primes), written in decimal. -/
def shaK : List Nat :=
  [1116352408, 1899447441, 3049323471, 3921009573, 961987163,
   1508970993, 2453635748, 2870763221, 3624381080, 310598401,
   607225278, 1426881987, 1925078388, 2162078206, 2614888103,
   3248222580, 3835390401, 4022224774, 264347078, 604807628,
   770255983, 1249150122, 1555081692, 1996064986, 2554220882,
   2821834349, 2952996808, 3210313671, 3336571891, 3584528711,
   113926993, 338241895, 666307205, 773529912, 1294757372,
   1396182291, 1695183700, 1986661051, 2177026350, 2456956037,
   2730485921, 2820302411, 3259730800, 3345764771, 3516065817,
   3600352804, 4094571909, 275423344, 430227734, 506948616,
   659060556, 883997877, 958139571, 1322822218, 1537002063,
   1747873779, 1955562222, 2024104815, 2227730452, 2361852424,
   2428436474, 2756734187, 3204031479, 3329325298]

/-- The initial SHA-256 state (fractional parts of the square roots of the
first 8 primes), written in decimal. -/
def shaH0 : List Nat :=
  [1779033703, 3144134277, 1013904242, 2773480762,
   1359893119, 2600822924, 528734635, 1541459225]

/-- Pad a byte message the SHA-256 way: append `0x80`, zero bytes up to 56 mod
64, and the bit length as eight big-endian bytes. -/
def shaPad (msg : List Nat) : List Nat :=
  let len := msg.length
  let zeros := (120 - ((len + 1) % 64)) % 64
  let bitLen := len * 8
  msg ++ [0x80] ++ List.replicate zeros 0 ++
    [(bitLen >>> 56) &&& 255, (bitLen >>> 48) &&& 255, (bitLen >>> 40) &&& 255,
     (bitLen >>> 32) &&& 255, (bitLen >>> 24) &&& 255, (bitLen >>> 16) &&& 255,
     (bitLen >>> 8) &&& 255, bitLen &&& 255]

/-- Group bytes four at a time into big-endian 32-bit words. -/
def bytesToWords : List Nat → List Nat
  | a :: b :: c :: d :: rest =>
      (a * 16777216 + b * 65536 + c * 256 + d) :: bytesToWords rest
  | _ => []

/-- Extend the 16 message-schedule words to 64, `n` extension steps left. -/
def extendWords : Nat → List Nat → List Nat
  | 0, w => w
  | n + 1, w =>
      let l := w.length
      let wi := add32 (add32 (w.getD (l - 16) 0) (smallS0 (w.getD (l - 15) 0)))
                      (add32 (w.getD (l - 7) 0) (smallS1 (w.getD (l - 2) 0)))
      extendWords n (w ++ [wi])

/-- One SHA-256 round: update the eight working variables with one schedule
word and one round constant. -/
def shaRound (st : List Nat) (kw : Nat × Nat) : List Nat :=
  match st with
  | [a, b, c, d, e, f, g, h] =>
      let t1 := add32 h (add32 (bigS1 e) (add32 (shaCh e f g) (add32 kw.1 kw.2)))
      let t2 := add32 (bigS0 a) (shaMaj a b c)
      [add32 t1 t2, a, b, c, add32 d t1, e, f, g]
  | st => st

/-- Compress one 64-byte chunk into the running state. -/
def shaCompress (st : List Nat) (chunk : List Nat) : List Nat :=
  let ws := extendWords 48 (bytesToWords chunk)
  let fin := (shaK.zip ws).foldl shaRound st
  (st.zip fin).map (fun p => add32 p.1 p.2)

/-- Fold the compression function over successive 64-byte chunks; the first
argument is fuel, always at least the number of chunks. -/
def shaChunks : Nat → List Nat → List Nat → List Nat
  | 0, st, _ => st
  | _ + 1, st, [] => st
  | n + 1, st, l => shaChunks n (shaCompress st (l.take 64)) (l.drop 64)

/-- The SHA-256 digest of a byte message, as 32 bytes. -/
def sha256 (msg : List Nat) : List Nat :=
  let padded := shaPad msg
  let st := shaChunks padded.length shaH0 padded
  st.flatMap (fun x => [(x >>> 24) &&& 255, (x >>> 16) &&& 255, (x >>> 8) &&& 255, x &&& 255])

/-- One lowercase hexadecimal digit. -/
def hexDigit (n : Nat) : Char :=
  if n < 10 then Char.ofNat (48 + n) else Char.ofNat (87 + n)

/-- A byte as two lowercase hexadecimal characters. -/
def byteHex (b : Nat) : List Char := [hexDigit (b / 16), hexDigit (b % 16)]

/-- UTF-8 encoding of one character, as Rust's `str::as_bytes` produces. -/
def utf8Bytes (c : Char) : List Nat :=
  let n := c.toNat
  if n < 0x80 then [n]
  else if n < 0x800 then
    [0xC0 ||| (n >>> 6), 0x80 ||| (n &&& 0x3F)]
  else if n < 0x10000 then
    [0xE0 ||| (n >>> 12), 0x80 ||| ((n >>> 6) &&& 0x3F), 0x80 ||| (n &&& 0x3F)]
  else
    [0xF0 ||| (n >>> 18), 0x80 ||| ((n >>> 12) &&& 0x3F),
     0x80 ||| ((n >>> 6) &&& 0x3F), 0x80 ||| (n &&& 0x3F)]

/-- The UTF-8 bytes of a string. -/
def strBytes (s : String) : List Nat := s.data.flatMap utf8Bytes

/-- Lowercase-hex SHA-256 digest of a string, Rust's
`format!("{:x}", Sha256::digest(s))`. -/
def sha256Hex (s : String) : String :=
  String.mk ((sha256 (strBytes s)).flatMap byteHex)

/-! ### Data model (`main.rs`)

Fields `from` and `to` of the Rust `Transaction` are spelled `from_` and `to_`
here because both collide with Lean tokens. -/

/-- The error enum of `main.rs`; `TimeError` is raised when the system clock
read fails in `Block::new`. -/
inductive BlockchainError where
  | TimeError (msg : String)
  deriving DecidableEq

/-- Rust struct `Transaction`. -/
structure Transaction where
  from_ : String
  to_ : String
  amount : Nat
  fee : Nat
  signature : Option String
  deriving DecidableEq

/-- Rust struct `MultipleTransactions`. -/
structure MultipleTransactions where
  transaction_table : List Transaction
  deriving DecidableEq

/-- Rust struct `Block`. -/
structure Block where
  index : Nat
  prev_hash : String
  timestamp : Nat
  data : MultipleTransactions
  nonce : Nat
  hash : String
  deriving DecidableEq

/-- Rust struct `BlockChain`. -/
structure BlockChain where
  chain : List Block
  deriving DecidableEq

/-- The `DIFFICULTY` constant of `main.rs`. -/
def DIFFICULTY : Nat := 2

/-- The `Display` rendering of a `Transaction`:
`"From: {} To: {} Amount: {} Fee: {}"`. -/
def Transaction.display (t : Transaction) : String :=
  "From: " ++ t.from_ ++ " To: " ++ t.to_ ++ " Amount: " ++ toString t.amount ++
    " Fee: " ++ toString t.fee

/-- The `Display` rendering of `MultipleTransactions`: the concatenation of
`"Transaction {i+1}: {t} "` over the enumerated table. -/
def MultipleTransactions.display (mt : MultipleTransactions) : String :=
  mt.transaction_table.enum.foldl
    (fun acc p => acc ++ "Transaction " ++ toString (p.1 + 1) ++ ": " ++ p.2.display ++ " ") ""

/-- The string hashed by `Block::calculate_hash`:
`format!("{} {} {} {} {}", index, prev_hash, timestamp, data, nonce)`. -/
def Block.hashInput (b : Block) : String :=
  toString b.index ++ " " ++ b.prev_hash ++ " " ++ toString b.timestamp ++ " " ++
    b.data.display ++ " " ++ toString b.nonce

/-- `Block::calculate_hash`: the lowercase-hex SHA-256 digest of `hashInput`. -/
def Block.calculate_hash (b : Block) : String := sha256Hex b.hashInput

/-- `Block::new`: the system clock is passed in as `clock`; on clock failure
the constructor maps the error through `BlockchainError::TimeError`. -/
def Block.new (index : Nat) (prev_hash : String) (data : MultipleTransactions)
    (clock : Except String Nat) : Except BlockchainError Block :=
  match clock with
  | .error e => .error (.TimeError ("Time Error : " ++ e))
  | .ok ts => .ok ⟨index, prev_hash, ts, data, 0, ""⟩

/-! ### Event bus (`events.rs`) -/

/-- Rust enum `BlockchainEvent`. -/
inductive BlockchainEvent where
  | BlockMiningStarted (block_index : Nat) (miner : String) (timestamp : Nat)
  | BlockMined (block_index : Nat) (hash : String) (miner : String) (timestamp : Nat)
      (transactions_count : Nat)
  | TransactionCreated (from_ : String) (to_ : String) (amount : Nat) (fee : Nat)
      (block_index : Nat)
  | BlockchainUpdated (total_blocks : Nat) (total_transactions : Nat)
  deriving DecidableEq

/-- Discriminator for `BlockMiningStarted`. -/
def BlockchainEvent.isMiningStarted : BlockchainEvent → Bool
  | .BlockMiningStarted _ _ _ => true
  | _ => false

/-- Discriminator for `BlockMined`. -/
def BlockchainEvent.isBlockMined : BlockchainEvent → Bool
  | .BlockMined _ _ _ _ _ => true
  | _ => false

/-- Discriminator for `TransactionCreated`. -/
def BlockchainEvent.isTransactionCreated : BlockchainEvent → Bool
  | .TransactionCreated _ _ _ _ _ => true
  | _ => false

/-- Discriminator for `BlockchainUpdated`. -/
def BlockchainEvent.isUpdated : BlockchainEvent → Bool
  | .BlockchainUpdated _ _ => true
  | _ => false

/-- The `EventBus` of `events.rs` in a sequential embedding: `receivers` is
the broadcast channel's receiver count, `queue` the events written to the
channel, and `dropped` the events that were only logged because no receiver
was attached. -/
structure EventBus where
  receivers : Nat
  queue : List BlockchainEvent
  dropped : List BlockchainEvent
  deriving DecidableEq

/-- `EventBus::broadcast`: with zero receivers the event is logged and not
sent; otherwise it is written to the channel.  The function is total — the
producer gets no error and is never suspended. -/
def EventBus.broadcast (bus : EventBus) (event : BlockchainEvent) : EventBus :=
  if bus.receivers = 0 then { bus with dropped := bus.dropped ++ [event] }
  else { bus with queue := bus.queue ++ [event] }

/-! ### Mining and appending (`main.rs`) -/

/-- The loop body of `Block::mine_block_with_visual_hash`, with explicit
`fuel`; `none` models the loop still running.  On each pass the hash is
recomputed from the current fields; on a miss the nonce is incremented; on
the first hash that is non-empty and whose first `DIFFICULTY` bytes equal
`"00"` the loop broadcasts `BlockMined` and stops, pausing (3 s sleep,
recorded as the `Bool` of the result) exactly when more than 100 iterations
were needed. -/
def mineGo (miner : String) : Nat → Block → Nat → EventBus → Option (Block × Nat × Bool × EventBus)
  | 0, _, _, _ => none
  | fuel + 1, b, iteration, bus =>
      let h := b.calculate_hash
      let b' := { b with hash := h }
      let it := iteration + 1
      if h ≠ "" ∧ h.take DIFFICULTY = "00" then
        let bus' := bus.broadcast
          (.BlockMined b'.index h miner b'.timestamp b'.data.transaction_table.length)
        some (b', it, decide (100 < it), bus')
      else
        mineGo miner fuel { b' with nonce := b'.nonce + 1 } it bus

/-- `Block::mine_block_with_visual_hash`: broadcasts `BlockMiningStarted`,
then runs the proof-of-work loop.  Returns the mined block, the iteration
count, whether the deliberate pause was taken, and the bus state. -/
def Block.mine_block_with_visual_hash (b : Block) (bus : EventBus) (miner : String)
    (fuel : Nat) : Option (Block × Nat × Bool × EventBus) :=
  mineGo miner fuel b 0 (bus.broadcast (.BlockMiningStarted b.index miner b.timestamp))

/-- `BlockChain::new`: a single genesis block at index 0 with empty previous
hash and no transactions; a clock failure propagates out through `?`. -/
def BlockChain.new (clock : Except String Nat) : Except BlockchainError BlockChain :=
  match Block.new 0 "" ⟨[]⟩ clock with
  | .error e => .error e
  | .ok g => .ok ⟨[g]⟩

/-- `BlockChain::add_new_block`: overwrite the incoming block's `prev_hash`
with the hash of the current last block, mine it (`unwrap` on an empty chain
is modelled as `none`), push it, and broadcast `BlockchainUpdated` with the
post-append totals. -/
def BlockChain.add_new_block (c : BlockChain) (new_block : Block) (bus : EventBus)
    (miner : String) (fuel : Nat) : Option (BlockChain × EventBus) :=
  match c.chain.getLast? with
  | none => none
  | some last =>
      match ({ new_block with prev_hash := last.hash }).mine_block_with_visual_hash bus miner fuel with
      | none => none
      | some (b', _, _, bus') =>
          let chain' := c.chain ++ [b']
          let total_transactions := (chain'.map (fun bb => bb.data.transaction_table.length)).sum
          some (⟨chain'⟩, bus'.broadcast (.BlockchainUpdated chain'.length total_transactions))

/-- `BlockChain::get_total_block`. -/
def BlockChain.get_total_block (c : BlockChain) : Nat := c.chain.length

/-- `create_transaction` of `main.rs`: the signature field is always `None`.
The unused `_event_bus` parameter is dropped. -/
def create_transaction (from_ : String) (to_ : String) (amount : Nat) (fee : Nat)
    (_block_index : Nat) : Transaction :=
  { from_ := from_, to_ := to_, amount := amount, fee := fee, signature := none }

/-- One round of the simulation loop in `main`, after `Block::new` succeeded
with timestamp `ts`: broadcast `TransactionCreated` for every transaction of
the candidate block (built at index `idx` with empty `prev_hash`, nonce 0 and
empty hash), then hand the block to `add_new_block`. -/
def mining_round (c : BlockChain) (txs : List Transaction) (idx : Nat) (ts : Nat)
    (bus : EventBus) (miner : String) (fuel : Nat) : Option (BlockChain × EventBus) :=
  let new_block : Block := ⟨idx, "", ts, ⟨txs⟩, 0, ""⟩
  let bus' := txs.foldl
    (fun acc t => acc.broadcast (.TransactionCreated t.from_ t.to_ t.amount t.fee idx)) bus
  c.add_new_block new_block bus' miner fuel

/-! ### Query service (`websocket.rs`) -/

/-- `get_block_by_index`: `blockchain.chain.get(index)`, `none` modelling the
not-found rejection. -/
def get_block_by_index (c : BlockChain) (index : Nat) : Option Block :=
  c.chain.get? index

/-- One row of the `/api/transactions` response: a transaction annotated with
its owning block's position and hash. -/
structure TransactionView where
  block_index : Nat
  from_ : String
  to_ : String
  amount : Nat
  fee : Nat
  block_hash : String
  deriving DecidableEq

/-- `get_all_transactions`: the handler takes the shared ledger (read lock),
flattens every block's transactions annotated with block index and hash, and
returns the ledger untouched together with the response. -/
def get_all_transactions (c : BlockChain) : BlockChain × List TransactionView :=
  (c, c.chain.enum.flatMap (fun p =>
    p.2.data.transaction_table.map (fun t =>
      ⟨p.1, t.from_, t.to_, t.amount, t.fee, p.2.hash⟩)))

/-- Ledger states reachable by the program: the genesis ledger from
`BlockChain::new` under a successful clock read, extended by simulation
rounds whose transactions come from `create_transaction` and whose candidate
block carries the next index, as the loop in `main` builds them. -/
inductive Reachable : BlockChain → Prop where
  | genesis (ts : Nat) (c : BlockChain) :
      BlockChain.new (.ok ts) = .ok c → Reachable c
  | step (c c' : BlockChain) (txargs : List (String × String × Nat × Nat)) (ts : Nat)
      (bus bus' : EventBus) (miner : String) (fuel : Nat) :
      Reachable c →
      mining_round c
        (txargs.map (fun a => create_transaction a.1 a.2.1 a.2.2.1 a.2.2.2 c.chain.length))
        c.chain.length ts bus miner fuel = some (c', bus') →
      Reachable c'

/-- The chain-shape invariant maintained by the program: the chain is
non-empty; every stored block's `index` equals its position; the block at
position 0 has empty `prev_hash` and no transactions; every later block's
`prev_hash` is the `hash` of its predecessor; and every stored transaction
has an absent signature. -/
def ChainInv (c : BlockChain) : Prop :=
  c.chain ≠ [] ∧
  ∀ p b, c.chain.get? p = some b →
    b.index = p ∧
    (p = 0 → b.prev_hash = "" ∧ b.data.transaction_table = []) ∧
    (0 < p → ∃ pb, c.chain.get? (p - 1) = some pb ∧ b.prev_hash = pb.hash) ∧
    (∀ t ∈ b.data.transaction_table, t.signature = none)

/-! ### Concrete instances used to witness the theorems below -/

/-- A bus with no attached receiver. -/
def bus0 : EventBus := ⟨0, [], []⟩

/-- A bus with one attached receiver and nothing delivered yet. -/
def bus1 : EventBus := ⟨1, [], []⟩

/-- A genesis-only ledger with timestamp 0. -/
def genesis0 : BlockChain := ⟨[⟨0, "", 0, ⟨[]⟩, 0, ""⟩]⟩

/-- A candidate block whose very first recomputed hash meets the difficulty
(found by searching timestamps). -/
def wBlock : Block := ⟨0, "", 79, ⟨[]⟩, 0, ""⟩

/-- The digest of `"0  79  0"`. -/
def wHash : String := "001c1939a375723fad6f051d70ef83043e3aeaca2c384d751dbdfd81e020e47b"

/-- An already-mined block over `prev_hash = "ab"`: its stored hash is the
recomputed digest of its own fields and starts with `"00"`. -/
def cexBlock : Block :=
  ⟨1, "ab", 88, ⟨[]⟩, 293, "00bf272f4d44948f07d2577db363cf743c84faf5dda7fb72f671fc53d0e98551"⟩

/-- The digest `cexBlock` acquires after `add_new_block` rewrites its
`prev_hash` to `""` and re-runs the mining search. -/
def cexNewHash : String := "0072b0be594ab7f5e14eda265238cc4fa8799d59b7a9745e0468be966daa470f"

/-- A concrete transaction for the round-trip witness. -/
def w5tx : Transaction := ⟨"a", "b", 1, 1, none⟩

/-- The hash mined in the witness round (timestamp 25, nonce 0). -/
def w5Hash : String := "003983b043ed72015e5be697ddc5f4cbd75dcaed636a68fd9d044ff394a46a4b"

/-- The ledger after the witness round. -/
def C5chain : BlockChain :=
  ⟨[⟨0, "", 0, ⟨[]⟩, 0, ""⟩, ⟨1, "", 25, ⟨[w5tx]⟩, 0, w5Hash⟩]⟩

/-- The bus after the witness round: one receiver, four delivered events. -/
def C5bus : EventBus :=
  ⟨1, [.TransactionCreated "a" "b" 1 1 1, .BlockMiningStarted 1 "m" 25,
       .BlockMined 1 w5Hash "m" 25 1, .BlockchainUpdated 2 1], []⟩

/-! ### Helper lemmas -/

/-- Broadcasting never changes the receiver count. -/
theorem EventBus.broadcast_receivers (bus : EventBus) (e : BlockchainEvent) :
    (bus.broadcast e).receivers = bus.receivers := by
  unfold EventBus.broadcast; split <;> rfl

/-- With at least one receiver, broadcasting appends the event to the channel. -/
theorem EventBus.broadcast_queue (bus : EventBus) (e : BlockchainEvent)
    (h : bus.receivers ≠ 0) : (bus.broadcast e).queue = bus.queue ++ [e] := by
  unfold EventBus.broadcast; simp [h]

/-- The recomputed hash does not depend on the stored `hash` field. -/
theorem Block.calculate_hash_update (i : Nat) (p : String) (t : Nat)
    (d : MultipleTransactions) (n : Nat) (h1 h2 : String) :
    Block.calculate_hash ⟨i, p, t, d, n, h1⟩ = Block.calculate_hash ⟨i, p, t, d, n, h2⟩ := by
  unfold Block.calculate_hash; congr 1

/-- Everything the mining loop guarantees on success: fields other than
`nonce` and `hash` are untouched, the nonce never moves backwards, the
iteration count is exactly the number of hashes computed, the stored hash is
the recomputed hash of the final fields and meets the difficulty test, every
nonce strictly before the final one fails the test (the loop stops at the
first success), the pause flag is exactly `100 < iterations`, and the bus has
received exactly one `BlockMined` event. -/
theorem mineGo_spec (m : String) :
    ∀ (fuel : Nat) (b : Block) (it : Nat) (bus : EventBus)
      (b' : Block) (it' : Nat) (p : Bool) (bus' : EventBus),
      mineGo m fuel b it bus = some (b', it', p, bus') →
      b'.index = b.index ∧ b'.prev_hash = b.prev_hash ∧ b'.timestamp = b.timestamp ∧
      b'.data = b.data ∧ b.nonce ≤ b'.nonce ∧ it' = it + (b'.nonce - b.nonce) + 1 ∧
      b'.hash = b'.calculate_hash ∧ b'.hash ≠ "" ∧ b'.hash.take DIFFICULTY = "00" ∧
      (∀ k, b.nonce ≤ k → k < b'.nonce →
        ¬(Block.calculate_hash { b with nonce := k } ≠ "" ∧
          (Block.calculate_hash { b with nonce := k }).take DIFFICULTY = "00")) ∧
      p = decide (100 < it') ∧
      bus' = bus.broadcast
        (.BlockMined b'.index b'.hash m b'.timestamp b'.data.transaction_table.length) := by
  intro fuel
  induction fuel with
  | zero => intro b it bus b' it' p bus' h; simp [mineGo] at h
  | succ n ih =>
    intro b it bus b' it' p bus' h
    simp only [mineGo] at h
    split at h
    case isTrue hcond =>
      simp only [Option.some.injEq, Prod.mk.injEq] at h
      obtain ⟨hb, hit, hp, hbus⟩ := h
      subst hb; subst hit; subst hp; subst hbus
      have hch : Block.calculate_hash { b with hash := b.calculate_hash } = b.calculate_hash :=
        Block.calculate_hash_update b.index b.prev_hash b.timestamp b.data b.nonce
          b.calculate_hash b.hash
      refine ⟨rfl, rfl, rfl, rfl, Nat.le_refl _, ?_, hch.symm, hcond.1, hcond.2, ?_, rfl, rfl⟩
      · show it + 1 = it + (b.nonce - b.nonce) + 1
        omega
      · intro k hk1 hk2
        have hk2' : k < b.nonce := hk2
        exact absurd (Nat.lt_of_le_of_lt hk1 hk2') (Nat.lt_irrefl b.nonce)
    case isFalse hcond =>
      obtain ⟨h1, h2, h3, h4, h5, h6, h7, h8, h9, h10, h11, h12⟩ :=
        ih { b with hash := b.calculate_hash, nonce := b.nonce + 1 } (it + 1) bus b' it' p bus' h
      have h5' : b.nonce + 1 ≤ b'.nonce := h5
      have h6' : it' = (it + 1) + (b'.nonce - (b.nonce + 1)) + 1 := h6
      refine ⟨h1, h2, h3, h4, by omega, by omega, h7, h8, h9, ?_, h11, h12⟩
      intro k hk1 hk2
      rcases Nat.eq_or_lt_of_le hk1 with heq | hlt
      · subst heq
        exact hcond
      · have hcell := h10 k hlt hk2
        have heq2 : Block.calculate_hash
            { { b with hash := b.calculate_hash, nonce := b.nonce + 1 } with nonce := k } =
            Block.calculate_hash { b with nonce := k } :=
          Block.calculate_hash_update b.index b.prev_hash b.timestamp b.data k
            b.calculate_hash b.hash
        rw [heq2] at hcell
        exact hcell

/-- `mine_block_with_visual_hash` restated through `mineGo_spec`, with the
iteration counter started at 0 and the `BlockMiningStarted` broadcast made
explicit. -/
theorem mine_block_spec (b : Block) (bus : EventBus) (m : String) (fuel : Nat)
    (b' : Block) (its : Nat) (p : Bool) (bus' : EventBus)
    (h : b.mine_block_with_visual_hash bus m fuel = some (b', its, p, bus')) :
    b'.index = b.index ∧ b'.prev_hash = b.prev_hash ∧ b'.timestamp = b.timestamp ∧
    b'.data = b.data ∧ b.nonce ≤ b'.nonce ∧ its = (b'.nonce - b.nonce) + 1 ∧
    b'.hash = b'.calculate_hash ∧ b'.hash ≠ "" ∧ b'.hash.take DIFFICULTY = "00" ∧
    (∀ k, b.nonce ≤ k → k < b'.nonce →
      ¬(Block.calculate_hash { b with nonce := k } ≠ "" ∧
        (Block.calculate_hash { b with nonce := k }).take DIFFICULTY = "00")) ∧
    p = decide (100 < its) ∧
    bus' = (bus.broadcast (.BlockMiningStarted b.index m b.timestamp)).broadcast
      (.BlockMined b'.index b'.hash m b'.timestamp b'.data.transaction_table.length) := by
  obtain ⟨h1, h2, h3, h4, h5, h6, h7, h8, h9, h10, h11, h12⟩ :=
    mineGo_spec m fuel b 0 (bus.broadcast (.BlockMiningStarted b.index m b.timestamp))
      b' its p bus' h
  exact ⟨h1, h2, h3, h4, h5, by omega, h7, h8, h9, h10, h11, h12⟩

/-- What a successful `add_new_block` is made of: the chain tail exists, the
incoming block is re-keyed to the tail's hash and handed to the mining
routine, the mining result is appended, and `BlockchainUpdated` is broadcast
with the post-append totals. -/
theorem add_new_block_eq (c : BlockChain) (b : Block) (bus : EventBus) (m : String)
    (fuel : Nat) (c' : BlockChain) (bus' : EventBus)
    (h : c.add_new_block b bus m fuel = some (c', bus')) :
    ∃ last b' its p bus₂,
      c.chain.getLast? = some last ∧
      ({ b with prev_hash := last.hash }).mine_block_with_visual_hash bus m fuel
        = some (b', its, p, bus₂) ∧
      c'.chain = c.chain ++ [b'] ∧
      bus' = bus₂.broadcast (.BlockchainUpdated (c.chain ++ [b']).length
        (((c.chain ++ [b']).map (fun bb => bb.data.transaction_table.length)).sum)) := by
  unfold BlockChain.add_new_block at h
  split at h
  · exact absurd h (by simp)
  case h_2 last hlast =>
    split at h
    · exact absurd h (by simp)
    case h_2 b' its p bus₂ hmine =>
      simp only [Option.some.injEq, Prod.mk.injEq] at h
      obtain ⟨hc, hb⟩ := h
      exact ⟨last, b', its, p, bus₂, hlast, hmine, by rw [← hc], by rw [← hb]⟩

/-- Folding broadcasts over a transaction list with at least one receiver
appends the mapped events in order and keeps the receiver count. -/
theorem foldl_broadcast_spec (f : Transaction → BlockchainEvent) (txs : List Transaction) :
    ∀ bus : EventBus, bus.receivers ≠ 0 →
      (txs.foldl (fun acc t => acc.broadcast (f t)) bus).queue = bus.queue ++ txs.map f ∧
      (txs.foldl (fun acc t => acc.broadcast (f t)) bus).receivers = bus.receivers := by
  induction txs with
  | nil => intro bus h; simp
  | cons t ts ih =>
    intro bus h
    have hr := EventBus.broadcast_receivers bus (f t)
    obtain ⟨q, r⟩ := ih (bus.broadcast (f t)) (by rw [hr]; exact h)
    constructor
    · rw [List.foldl_cons, q, EventBus.broadcast_queue bus (f t) h]
      simp
    · rw [List.foldl_cons, r, hr]

/-- Every reachable ledger state satisfies the chain-shape invariant. -/
theorem reachable_chainInv (c : BlockChain) (h : Reachable c) : ChainInv c := by
  induction h with
  | genesis ts c0 hnew =>
    have hc : c0 = ⟨[⟨0, "", ts, ⟨[]⟩, 0, ""⟩]⟩ := by
      simp only [BlockChain.new, Block.new] at hnew
      exact (Except.ok.inj hnew).symm
    subst hc
    refine ⟨by simp, ?_⟩
    intro p b hb
    match p, hb with
    | 0, hb =>
      have hbe : b = ⟨0, "", ts, ⟨[]⟩, 0, ""⟩ := by
        simp only [List.get?] at hb
        exact (Option.some.inj hb).symm
      subst hbe
      exact ⟨rfl, fun _ => ⟨rfl, rfl⟩, fun h0 => absurd h0 (by omega), by simp⟩
    | p + 1, hb =>
      simp only [List.get?] at hb
      exact Option.noConfusion hb
  | step c c' txargs ts bus bus' miner fuel hreach hround ih =>
    obtain ⟨hne, hinv⟩ := ih
    unfold mining_round at hround
    obtain ⟨last, b', its, pz, bus₂, hlast, hmine, hchain, hbus⟩ :=
      add_new_block_eq _ _ _ _ _ _ _ hround
    obtain ⟨hidx, hprev, hts, hdata, _, _, _, _, _, _, _, _⟩ :=
      mine_block_spec _ _ _ _ _ _ _ _ hmine
    have hidx' : b'.index = c.chain.length := hidx
    have hprev' : b'.prev_hash = last.hash := hprev
    have hdata' : b'.data = ⟨txargs.map
        (fun a => create_transaction a.1 a.2.1 a.2.2.1 a.2.2.2 c.chain.length)⟩ := hdata
    constructor
    · rw [hchain]; simp
    intro p b hb
    rw [hchain] at hb
    by_cases hp : p < c.chain.length
    · have hb' : c.chain.get? p = some b := by
        rwa [List.get?_append hp] at hb
      obtain ⟨i1, i2, i3, i4⟩ := hinv p b hb'
      refine ⟨i1, i2, ?_, i4⟩
      intro hp0
      obtain ⟨pb, hpb, hph⟩ := i3 hp0
      have hplt : p - 1 < c.chain.length := by omega
      exact ⟨pb, by rw [hchain, List.get?_append hplt]; exact hpb, hph⟩
    · by_cases hpe : p = c.chain.length
      · subst hpe
        have hbe : b = b' := by
          rw [List.get?_concat_length] at hb
          exact (Option.some.inj hb).symm
        subst hbe
        have hlen0 : c.chain.length ≠ 0 := by
          intro h0
          exact hne (List.length_eq_zero.mp h0)
        refine ⟨hidx', fun h0 => absurd h0 hlen0, ?_, ?_⟩
        · intro _
          refine ⟨last, ?_, hprev'⟩
          have hg : c.chain.get? (c.chain.length - 1) = some last := by
            rw [← List.getLast?_eq_get?]; exact hlast
          rw [hchain, List.get?_append (by omega)]
          exact hg
        · intro t ht
          rw [hdata'] at ht
          obtain ⟨a, _, rfl⟩ := List.mem_map.mp ht
          rfl
      · have hge : c.chain.length + 1 ≤ p := by omega
        have hnone : (c.chain ++ [b']).get? p = none :=
          List.get?_len_le (by simp; omega)
        rw [hnone] at hb
        exact absurd hb (by simp)

/-- The recomputed hash is determined by the five hashed fields. -/
theorem Block.calculate_hash_congr (x y : Block) (hi : x.index = y.index)
    (hp : x.prev_hash = y.prev_hash) (ht : x.timestamp = y.timestamp)
    (hd : x.data = y.data) (hn : x.nonce = y.nonce) :
    x.calculate_hash = y.calculate_hash := by
  unfold Block.calculate_hash Block.hashInput
  rw [hi, hp, ht, hd, hn]

/-- Counting over a mapped list when the predicate rejects every image. -/
theorem countP_map_zero {α β : Type} (f : α → β) (p : β → Bool) (l : List α)
    (h : ∀ a, p (f a) = false) : (l.map f).countP p = 0 := by
  induction l with
  | nil => rfl
  | cons x xs ih => simp [List.countP_cons, h, ih]

/-- Counting over a mapped list when the predicate accepts every image. -/
theorem countP_map_all {α β : Type} (f : α → β) (p : β → Bool) (l : List α)
    (h : ∀ a, p (f a) = true) : (l.map f).countP p = l.length := by
  induction l with
  | nil => rfl
  | cons x xs ih => simp [List.countP_cons, h, ih]

/-- C1: every block returned by the mining routine stores in `hash` the
lowercase-hex SHA-256 digest of the single-space concatenation of its index,
previous hash, timestamp, serialized transactions and nonce; the first
`DIFFICULTY` (2) characters of that hash are all `'0'`; and recomputing the
hash from the stored fields reproduces the stored hash. -/
theorem C1_mined_hash (b : Block) (bus : EventBus) (m : String) (fuel : Nat)
    (b' : Block) (its : Nat) (p : Bool) (bus' : EventBus)
    (h : b.mine_block_with_visual_hash bus m fuel = some (b', its, p, bus')) :
    b'.hash = sha256Hex (toString b'.index ++ " " ++ b'.prev_hash ++ " " ++
      toString b'.timestamp ++ " " ++ b'.data.display ++ " " ++ toString b'.nonce) ∧
    (∀ ch ∈ (b'.hash.take DIFFICULTY).data, ch = '0') ∧
    b'.calculate_hash = b'.hash := by
  obtain ⟨_, _, _, _, _, _, h7, h8, h9, _, _, _⟩ := mine_block_spec _ _ _ _ _ _ _ _ h
  refine ⟨by rw [h7]; rfl, ?_, h7.symm⟩
  intro ch hch
  rw [h9] at hch
  have hdq : ("00" : String).data = ['0', '0'] := rfl
  rw [hdq] at hch
  simp only [List.mem_cons, List.not_mem_nil, or_false, or_self] at hch
  exact hch

/-- C7: the deliberate pause is taken exactly when the search needed more
than 100 iterations; the iteration count is the distance the nonce travelled
plus one; the returned hash is the recomputed hash at the returned nonce,
which is the first nonce at or after the starting one whose hash meets the
difficulty — the search is never re-run past that first success. -/
theorem C7_pause_and_first_success (b : Block) (bus : EventBus) (m : String) (fuel : Nat)
    (b' : Block) (its : Nat) (paused : Bool) (bus' : EventBus)
    (h : b.mine_block_with_visual_hash bus m fuel = some (b', its, paused, bus')) :
    (paused = true ↔ 100 < its) ∧
    its = b'.nonce - b.nonce + 1 ∧
    b.nonce ≤ b'.nonce ∧
    b'.hash = Block.calculate_hash { b with nonce := b'.nonce } ∧
    (Block.calculate_hash { b with nonce := b'.nonce }).take DIFFICULTY = "00" ∧
    (∀ k, b.nonce ≤ k → k < b'.nonce →
      ¬(Block.calculate_hash { b with nonce := k } ≠ "" ∧
        (Block.calculate_hash { b with nonce := k }).take DIFFICULTY = "00")) := by
  obtain ⟨h1, h2, h3, h4, h5, h6, h7, h8, h9, h10, h11, h12⟩ :=
    mine_block_spec _ _ _ _ _ _ _ _ h
  have hconv : b'.calculate_hash = Block.calculate_hash { b with nonce := b'.nonce } :=
    Block.calculate_hash_congr _ _ h1 h2 h3 h4 rfl
  refine ⟨by rw [h11]; exact decide_eq_true_iff, h6, h5, by rw [h7]; exact hconv, ?_, h10⟩
  rw [← hconv, ← h7]
  exact h9

/-- C4: publishing on the bus with zero active subscribers leaves the
channel untouched — the event is recorded on the log of dropped events, the
producer gets no error and is not suspended (broadcast is a total function);
with at least one subscriber the event is written to the channel. -/
theorem C4_publish_semantics (bus : EventBus) (e : BlockchainEvent) :
    (bus.receivers = 0 →
      (bus.broadcast e).queue = bus.queue ∧
      (bus.broadcast e).dropped = bus.dropped ++ [e] ∧
      (bus.broadcast e).receivers = bus.receivers) ∧
    (bus.receivers ≠ 0 →
      (bus.broadcast e).queue = bus.queue ++ [e] ∧
      (bus.broadcast e).dropped = bus.dropped) := by
  unfold EventBus.broadcast
  constructor
  · intro h; simp [h]
  · intro h; simp [h]

/-- C4 witness: a concrete bus with zero receivers drops the event, one with
a receiver queues it. -/
theorem C4_witness :
    (bus0.broadcast (.BlockchainUpdated 1 0)).queue = bus0.queue ∧
    (bus1.broadcast (.BlockchainUpdated 1 0)).queue =
      bus1.queue ++ [.BlockchainUpdated 1 0] :=
  ⟨((C4_publish_semantics bus0 _).1 (by decide)).1,
   ((C4_publish_semantics bus1 _).2 (by decide)).1⟩

/-- C8: with a readable clock, ledger construction yields exactly one block
of index 0, empty previous hash and no transactions; a clock failure is
surfaced as the `TimeError` kind instead of a ledger. -/
theorem C8_genesis_construction :
    (∀ ts : Nat, BlockChain.new (.ok ts) = .ok ⟨[⟨0, "", ts, ⟨[]⟩, 0, ""⟩]⟩) ∧
    (∀ msg : String,
      BlockChain.new (.error msg) = .error (.TimeError ("Time Error : " ++ msg))) :=
  ⟨fun _ => rfl, fun _ => rfl⟩

/-- C9: the transaction-listing handler does not mutate the ledger and two
runs with no intervening mutation return identical results. -/
theorem C9_list_transactions_idempotent (c : BlockChain) :
    (get_all_transactions c).1 = c ∧
    (get_all_transactions (get_all_transactions c).1).2 = (get_all_transactions c).2 :=
  ⟨rfl, rfl⟩

/-- C2: in every reachable ledger state, every stored block's index equals
its position, every block with positive index links to the hash of the block
one position below it, and the block at position 0 has index 0, empty
previous hash and no transactions. -/
theorem C2_chain_linkage (c : BlockChain) (h : Reachable c) :
    (∀ p b, c.chain.get? p = some b → b.index = p ∧
      (0 < b.index →
        ∃ prev, c.chain.get? (b.index - 1) = some prev ∧ b.prev_hash = prev.hash)) ∧
    (∃ g, c.chain.get? 0 = some g ∧ g.index = 0 ∧ g.prev_hash = "" ∧
      g.data.transaction_table = []) := by
  obtain ⟨hne, hinv⟩ := reachable_chainInv c h
  constructor
  · intro p b hb
    obtain ⟨i1, _, i3, _⟩ := hinv p b hb
    refine ⟨i1, ?_⟩
    intro hpos
    rw [i1]
    rw [i1] at hpos
    exact i3 hpos
  · have hlen : 0 < c.chain.length := List.length_pos.mpr hne
    obtain ⟨g, hg⟩ : ∃ g, c.chain.get? 0 = some g := by
      cases hcg : c.chain.get? 0 with
      | none => rw [List.get?_eq_none] at hcg; omega
      | some g => exact ⟨g, rfl⟩
    obtain ⟨i1, i2, _, _⟩ := hinv 0 g hg
    exact ⟨g, hg, i1, (i2 rfl).1, (i2 rfl).2⟩

/-- C2 witness: the invariant evaluated on a concrete genesis ledger. -/
theorem C2_witness :
    ∃ g, (⟨[⟨0, "", 7, ⟨[]⟩, 0, ""⟩]⟩ : BlockChain).chain.get? 0 = some g ∧
      g.index = 0 ∧ g.prev_hash = "" ∧ g.data.transaction_table = [] :=
  (C2_chain_linkage ⟨[⟨0, "", 7, ⟨[]⟩, 0, ""⟩]⟩
    (Reachable.genesis 7 ⟨[⟨0, "", 7, ⟨[]⟩, 0, ""⟩]⟩ rfl)).2

/-- C6: on every reachable ledger state, the single-block query reports
not-found exactly for indices at or beyond the block count, and for smaller
indices returns the block whose `index` field equals the queried one. -/
theorem C6_get_block (c : BlockChain) (h : Reachable c) (i : Nat) :
    (get_block_by_index c i = none ↔ c.get_total_block ≤ i) ∧
    (i < c.get_total_block → ∃ b, get_block_by_index c i = some b ∧ b.index = i) := by
  obtain ⟨hne, hinv⟩ := reachable_chainInv c h
  constructor
  · exact List.get?_eq_none
  · intro hi
    cases hg : c.chain.get? i with
    | none =>
      rw [List.get?_eq_none] at hg
      have hi' : i < c.chain.length := hi
      omega
    | some b =>
      obtain ⟨i1, _, _, _⟩ := hinv i b hg
      exact ⟨b, hg, i1⟩

/-- C6 witness: position 0 of a concrete genesis ledger is found and carries
index 0. -/
theorem C6_witness :
    ∃ b, get_block_by_index genesis0 0 = some b ∧ b.index = 0 :=
  (C6_get_block genesis0 (Reachable.genesis 0 genesis0 rfl) 0).2 (by decide)

/-- C10: the transaction constructor always produces an absent signature,
and on every reachable ledger state every stored transaction's signature is
`none`. -/
theorem C10_signature_absent (c : BlockChain) (h : Reachable c) :
    (∀ f t a fe bi, (create_transaction f t a fe bi).signature = none) ∧
    (∀ b ∈ c.chain, ∀ tx ∈ b.data.transaction_table, tx.signature = none) := by
  obtain ⟨_, hinv⟩ := reachable_chainInv c h
  refine ⟨fun _ _ _ _ _ => rfl, ?_⟩
  intro b hb tx htx
  obtain ⟨p, hp⟩ := List.get?_of_mem hb
  obtain ⟨_, _, _, i4⟩ := hinv p b hp
  exact i4 tx htx

/-- C10 witness: a concrete constructed transaction and a concrete reachable
ledger, through the theorem. -/
theorem C10_witness :
    (create_transaction "x" "y" 5 1 3).signature = none ∧
    (∀ b ∈ genesis0.chain, ∀ tx ∈ b.data.transaction_table, tx.signature = none) :=
  ⟨(C10_signature_absent genesis0 (Reachable.genesis 0 genesis0 rfl)).1 "x" "y" 5 1 3,
   (C10_signature_absent genesis0 (Reachable.genesis 0 genesis0 rfl)).2⟩

/-- C3 (amended): a successful `add_new_block` rewrites the incoming block's
`prev_hash` to the hash of the current last block and then itself runs the
mining search on it — so the pushed block is the mining routine's output,
whose nonce and hash are in general not those of the input — and appends
exactly one block. -/
theorem C3_append_runs_mining (c : BlockChain) (b : Block) (bus : EventBus) (m : String)
    (fuel : Nat) (c' : BlockChain) (bus' : EventBus)
    (h : c.add_new_block b bus m fuel = some (c', bus')) :
    c'.chain.length = c.chain.length + 1 ∧
    ∃ last b' its p bus₂,
      c.chain.getLast? = some last ∧
      ({ b with prev_hash := last.hash }).mine_block_with_visual_hash bus m fuel
        = some (b', its, p, bus₂) ∧
      b'.prev_hash = last.hash ∧
      c'.chain = c.chain ++ [b'] := by
  obtain ⟨last, b', its, p, bus₂, h1, h2, h3, _⟩ := add_new_block_eq _ _ _ _ _ _ _ h
  obtain ⟨_, hprev, _, _, _, _, _, _, _, _, _, _⟩ := mine_block_spec _ _ _ _ _ _ _ _ h2
  have hprev' : b'.prev_hash = last.hash := hprev
  exact ⟨by rw [h3]; simp, last, b', its, p, bus₂, h1, h2, hprev', h3⟩

/-- C5: with a subscriber attached, a simulation round delivers to the
channel, in order, one `TransactionCreated` per transaction of the round,
then one `BlockMiningStarted`, then one `BlockMined`, then one
`BlockchainUpdated` carrying the post-append block and transaction totals;
the counts of each kind in the delivered suffix are exactly `k`, 1, 1, 1,
and the list shape gives `BlockMiningStarted` before `BlockMined` before
`BlockchainUpdated`, with every `TransactionCreated` before
`BlockchainUpdated`. -/
theorem C5_round_events (c : BlockChain) (txs : List Transaction) (idx ts : Nat)
    (bus : EventBus) (m : String) (fuel : Nat) (c' : BlockChain) (bus' : EventBus)
    (hrecv : bus.receivers ≠ 0)
    (h : mining_round c txs idx ts bus m fuel = some (c', bus')) :
    ∃ (mh : String) (delivered : List BlockchainEvent),
      delivered = txs.map
          (fun t => BlockchainEvent.TransactionCreated t.from_ t.to_ t.amount t.fee idx) ++
        [.BlockMiningStarted idx m ts,
         .BlockMined idx mh m ts txs.length,
         .BlockchainUpdated c'.chain.length
           ((c'.chain.map (fun bb => bb.data.transaction_table.length)).sum)] ∧
      bus'.queue = bus.queue ++ delivered ∧
      c'.chain.length = c.chain.length + 1 ∧
      delivered.countP (fun e => e.isTransactionCreated) = txs.length ∧
      delivered.countP (fun e => e.isMiningStarted) = 1 ∧
      delivered.countP (fun e => e.isBlockMined) = 1 ∧
      delivered.countP (fun e => e.isUpdated) = 1 := by
  unfold mining_round at h
  obtain ⟨last, b', its, pz, bus₂, hlast, hmine, hchain, hbus⟩ :=
    add_new_block_eq _ _ _ _ _ _ _ h
  obtain ⟨hidx, hprev, hts, hdata, _, _, _, _, _, _, _, hbus₂⟩ :=
    mine_block_spec _ _ _ _ _ _ _ _ hmine
  have hidx' : b'.index = idx := hidx
  have hts' : b'.timestamp = ts := hts
  have hcnt : b'.data.transaction_table.length = txs.length := by rw [hdata]
  obtain ⟨hqTC, hrTC⟩ := foldl_broadcast_spec
    (fun t => BlockchainEvent.TransactionCreated t.from_ t.to_ t.amount t.fee idx)
    txs bus hrecv
  have hbus₂' : bus₂ =
      ((txs.foldl (fun acc t =>
          acc.broadcast (.TransactionCreated t.from_ t.to_ t.amount t.fee idx)) bus).broadcast
        (.BlockMiningStarted idx m ts)).broadcast
        (.BlockMined b'.index b'.hash m b'.timestamp b'.data.transaction_table.length) := hbus₂
  have hrTC' : (txs.foldl (fun acc t =>
      acc.broadcast (.TransactionCreated t.from_ t.to_ t.amount t.fee idx)) bus).receivers ≠ 0 := by
    rw [hrTC]; exact hrecv
  have hr1 : ((txs.foldl (fun acc t =>
      acc.broadcast (.TransactionCreated t.from_ t.to_ t.amount t.fee idx)) bus).broadcast
        (.BlockMiningStarted idx m ts)).receivers ≠ 0 := by
    rw [EventBus.broadcast_receivers]; exact hrTC'
  have hr2 : bus₂.receivers ≠ 0 := by
    rw [hbus₂', EventBus.broadcast_receivers, EventBus.broadcast_receivers]; exact hrTC'
  refine ⟨b'.hash, _, rfl, ?_, by rw [hchain]; simp, ?_, ?_, ?_, ?_⟩
  · rw [hbus, EventBus.broadcast_queue _ _ hr2, hbus₂',
      EventBus.broadcast_queue _ _ hr1, EventBus.broadcast_queue _ _ hrTC', hqTC,
      hidx', hts', hcnt, ← hchain]
    simp [List.append_assoc]
  · rw [List.countP_append, countP_map_all _ _ _ (fun t => rfl)]
    simp [List.countP_cons, BlockchainEvent.isTransactionCreated]
  · rw [List.countP_append, countP_map_zero _ _ _ (fun t => rfl)]
    simp [List.countP_cons, BlockchainEvent.isMiningStarted]
  · rw [List.countP_append, countP_map_zero _ _ _ (fun t => rfl)]
    simp [List.countP_cons, BlockchainEvent.isBlockMined]
  · rw [List.countP_append, countP_map_zero _ _ _ (fun t => rfl)]
    simp [List.countP_cons, BlockchainEvent.isUpdated]

set_option maxRecDepth 100000 in
set_option maxHeartbeats 2000000 in
/-- C1 witness: a concrete block whose first recomputed hash meets the
difficulty, mined with fuel 1, evaluated and passed through the theorem. -/
theorem C1_witness :
    wBlock.mine_block_with_visual_hash bus0 "m" 1 =
      some ({ wBlock with hash := wHash }, 1, false,
        ⟨0, [], [.BlockMiningStarted 0 "m" 79, .BlockMined 0 wHash "m" 79 0]⟩) ∧
    ({ wBlock with hash := wHash }).calculate_hash = ({ wBlock with hash := wHash }).hash := by
  have hmine : wBlock.mine_block_with_visual_hash bus0 "m" 1 =
      some ({ wBlock with hash := wHash }, 1, false,
        ⟨0, [], [.BlockMiningStarted 0 "m" 79, .BlockMined 0 wHash "m" 79 0]⟩) := by decide
  exact ⟨hmine, (C1_mined_hash _ _ _ _ _ _ _ _ hmine).2.2⟩

set_option maxRecDepth 100000 in
set_option maxHeartbeats 2000000 in
/-- C7 witness: the same concrete one-iteration mining run, with the pause
flag false and the iteration arithmetic checked through the theorem. -/
theorem C7_witness :
    wBlock.mine_block_with_visual_hash bus0 "m" 1 =
      some ({ wBlock with hash := wHash }, 1, false,
        ⟨0, [], [.BlockMiningStarted 0 "m" 79, .BlockMined 0 wHash "m" 79 0]⟩) ∧
    (false = true ↔ 100 < 1) ∧
    (1 : Nat) = ({ wBlock with hash := wHash }).nonce - wBlock.nonce + 1 := by
  have hmine : wBlock.mine_block_with_visual_hash bus0 "m" 1 =
      some ({ wBlock with hash := wHash }, 1, false,
        ⟨0, [], [.BlockMiningStarted 0 "m" 79, .BlockMined 0 wHash "m" 79 0]⟩) := by decide
  obtain ⟨w1, w2, _⟩ := C7_pause_and_first_success _ _ _ _ _ _ _ _ hmine
  exact ⟨hmine, w1, w2⟩

set_option maxRecDepth 100000 in
set_option maxHeartbeats 4000000 in
/-- C3 counterexample: `cexBlock` is already mined (its stored hash is the
recomputed digest of its own fields and starts with two zero characters),
yet appending it to a genesis ledger returns a block whose hash differs from
the stored one — `add_new_block` re-ran the mining search after rewriting
`prev_hash`, so the claim that append leaves nonce and hash unchanged is
false. -/
theorem C3_counterexample :
    cexBlock.calculate_hash = cexBlock.hash ∧
    cexBlock.hash.take DIFFICULTY = "00" ∧
    genesis0.add_new_block cexBlock bus1 "m" 1 =
      some (⟨[⟨0, "", 0, ⟨[]⟩, 0, ""⟩,
              { cexBlock with prev_hash := "", hash := cexNewHash }]⟩,
        ⟨1, [.BlockMiningStarted 1 "m" 88, .BlockMined 1 cexNewHash "m" 88 0,
             .BlockchainUpdated 2 0], []⟩) ∧
    cexNewHash ≠ cexBlock.hash := by decide

set_option maxRecDepth 100000 in
set_option maxHeartbeats 4000000 in
/-- C3 witness for the amended claim: the concrete append above evaluated,
and the amended theorem applied to it. -/
theorem C3_witness :
    genesis0.add_new_block cexBlock bus1 "m" 1 =
      some (⟨[⟨0, "", 0, ⟨[]⟩, 0, ""⟩,
              { cexBlock with prev_hash := "", hash := cexNewHash }]⟩,
        ⟨1, [.BlockMiningStarted 1 "m" 88, .BlockMined 1 cexNewHash "m" 88 0,
             .BlockchainUpdated 2 0], []⟩) ∧
    (⟨[⟨0, "", 0, ⟨[]⟩, 0, ""⟩,
       { cexBlock with prev_hash := "", hash := cexNewHash }]⟩ : BlockChain).chain.length =
      genesis0.chain.length + 1 := by
  have h : genesis0.add_new_block cexBlock bus1 "m" 1 =
      some (⟨[⟨0, "", 0, ⟨[]⟩, 0, ""⟩,
              { cexBlock with prev_hash := "", hash := cexNewHash }]⟩,
        ⟨1, [.BlockMiningStarted 1 "m" 88, .BlockMined 1 cexNewHash "m" 88 0,
             .BlockchainUpdated 2 0], []⟩) := by decide
  exact ⟨h, (C3_append_runs_mining _ _ _ _ _ _ _ h).1⟩

set_option maxRecDepth 100000 in
set_option maxHeartbeats 4000000 in
/-- C5 witness: a concrete round (one transaction, fuel 1) evaluated, and
the event-delivery theorem applied to it. -/
theorem C5_witness :
    mining_round genesis0 [w5tx] 1 25 bus1 "m" 1 = some (C5chain, C5bus) ∧
    ∃ (mh : String) (delivered : List BlockchainEvent),
      delivered = [w5tx].map
          (fun t => BlockchainEvent.TransactionCreated t.from_ t.to_ t.amount t.fee 1) ++
        [.BlockMiningStarted 1 "m" 25,
         .BlockMined 1 mh "m" 25 ([w5tx].length),
         .BlockchainUpdated C5chain.chain.length
           ((C5chain.chain.map (fun bb => bb.data.transaction_table.length)).sum)] ∧
      C5bus.queue = bus1.queue ++ delivered ∧
      C5chain.chain.length = genesis0.chain.length + 1 ∧
      delivered.countP (fun e => e.isTransactionCreated) = [w5tx].length ∧
      delivered.countP (fun e => e.isMiningStarted) = 1 ∧
      delivered.countP (fun e => e.isBlockMined) = 1 ∧
      delivered.countP (fun e => e.isUpdated) = 1 := by
  have h : mining_round genesis0 [w5tx] 1 25 bus1 "m" 1 = some (C5chain, C5bus) := by decide
  exact ⟨h, C5_round_events genesis0 [w5tx] 1 25 bus1 "m" 1 C5chain C5bus (by decide) h⟩
